import Mathlib

/-!
Verification of the ASAP-minimisation helpers (src/utils/asap_helpers.py).

Shallow embedding conventions:
* Python dicts become structures; an optional dict key becomes an Option field.
* The external solver (utils.vroom.solve) is an injected oracle
  VrpInstance -> Solution; the cl_args argument is constant across all calls
  inside one solve_asap run, so it is absorbed into the oracle closure.
* Python integers are Int; Python floor division (//) is Int.fdiv.
* Code that can raise returns Option / Except: none (or a pyErr-style value)
  models an uncaught Python exception (KeyError, ValueError, IndexError).
* max(r["steps"][-1]["arrival"] for r in routes) raises ValueError on an empty
  routes list; completionTime totalises this with default 0, and the places
  where the Python code would actually raise on empty routes (dichotomy bounds,
  backward_search) instead pattern-match and fail explicitly.
* The backward-search while loop is genuinely possibly nonterminating, so it
  takes a fuel argument; running out of fuel is Except.error BwFail.fuelOut,
  distinct from every behaviour of the program itself.
* Plotting (plot_pareto_front) only consumes data; it is modelled as a no-op.
-/

namespace Asap

/-- One step of a route; only the arrival timestamp is read by the core. -/
structure Step where
  arrival : Int
deriving DecidableEq, Repr

/-- A per-vehicle route: an ordered list of steps. -/
structure Route where
  steps : List Step
deriving DecidableEq, Repr

/-- The summary block of a solver result. -/
structure Summary where
  cost : Int
  unassigned : Int
  computing_times : Option Int
deriving DecidableEq, Repr

/-- A solver result / candidate solution (the dict returned by solve, plus the
core-internal optional origin tag). -/
structure Solution where
  code : Int
  error : String
  routes : List Route
  summary : Summary
  origin : Option String
deriving DecidableEq, Repr

/-- A vehicle; only its optional time_window is read or written by the core. -/
structure Vehicle where
  time_window : Option (Int × Int)
deriving DecidableEq, Repr

/-- A problem instance; the core only touches the vehicles list, so jobs and
matrices live inside the oracle closure. -/
structure VrpInstance where
  vehicles : List Vehicle
deriving DecidableEq, Repr

/-- The argument bundle of solve_asap.  pareto_plot_file is the truthiness of
the path string (plotting itself is out of scope and modelled as a no-op). -/
structure Problem where
  inst : VrpInstance
  return_pareto_front : Bool
  pareto_front_more_solution : Bool
  pareto_plot_file : Bool
deriving DecidableEq, Repr

/-- Arrival of the last step of a route, r["steps"][-1]["arrival"]
(default 0 on an empty steps list, which real routes never have). -/
def lastArrival (r : Route) : Int :=
  (r.steps.getLast?.map Step.arrival).getD 0

/-- Completion time of a solution, max(r["steps"][-1]["arrival"] for r in
sol["routes"]) (0 for an empty routes list, where Python would raise). -/
def completionTime (s : Solution) : Int :=
  match s.routes.map lastArrival with
  | [] => 0
  | d :: ds => ds.foldl max d

/-- Removal pass of both filters, for idx in sorted(set(to_remove),
reverse=True): solutions.pop(idx) -- popping a list at each index of idxs. -/
def popDescending (l : List α) (idxs : List Nat) : List α :=
  idxs.foldl (fun acc i => acc.eraseIdx i) l

/-- Descending order on Nat, used to model sorted(..., reverse=True). -/
def descLe (a b : Nat) : Prop := b ≤ a

instance : DecidableRel descLe := fun a b => Nat.decLe b a

instance : IsTotal Nat descLe := ⟨fun a b => Nat.le_total b a⟩

instance : IsTrans Nat descLe := ⟨fun _ _ _ hab hbc => Nat.le_trans hbc hab⟩

/-- The index order sorted(set(xs), reverse=True). -/
def sortedDescDedup (xs : List Nat) : List Nat :=
  List.insertionSort descLe xs.dedup

/-- Indices marked for removal by filter_dominated: i is marked when some j
with j distinct from i has strictly smaller completion time and strictly
smaller cost (the break in the source only stops duplicate marks, so the
marked set is exactly this filter). -/
def dominatedMarks (cts costs : List Int) : List Nat :=
  (List.range cts.length).filter (fun i =>
    (List.range cts.length).any (fun j =>
      decide (j ≠ i) && decide (cts.getD j 0 < cts.getD i 0) &&
        decide (costs.getD j 0 < costs.getD i 0)))

/-- filter_dominated: remove any solution strictly dominated on both
completion time and cost. -/
def filter_dominated (solutions : List Solution) : List Solution :=
  popDescending solutions
    (sortedDescDedup (dominatedMarks (solutions.map completionTime)
      (solutions.map (fun s => s.summary.cost))))

/-- Equality of the derived (completion time, cost) coordinates of indices a
and b of the parallel lists cts and costs. -/
abbrev keyEq (cts costs : List Int) (a b : Nat) : Prop :=
  cts.getD a 0 = cts.getD b 0 ∧ costs.getD a 0 = costs.getD b 0

/-- The inner j-loop of filter_unique: scan j upward from j0 for rem steps;
skip already-marked j; return the first unmarked j with coordinates equal to
those of i (the append-then-break of the source).  rem is the loop count
range(i+1, n) has, namely n - (i+1). -/
def innerScan (cts costs : List Int) (i : Nat) (marks : List Nat) :
    Nat → Nat → Option Nat
  | _, 0 => none
  | j, rem + 1 =>
    if j ∈ marks then innerScan cts costs i marks (j + 1) rem
    else if keyEq cts costs i j then some j
    else innerScan cts costs i marks (j + 1) rem

/-- The marks accumulated by the outer i-loop of filter_unique after the
first i iterations. -/
def marksUpTo (cts costs : List Int) (i : Nat) : List Nat :=
  (List.range i).foldl (fun marks k =>
    match innerScan cts costs k marks (k + 1) (cts.length - (k + 1)) with
    | some j => marks ++ [j]
    | none => marks) []

/-- Indices marked for removal by filter_unique (the full outer loop). -/
def uniqueMarks (cts costs : List Int) : List Nat :=
  marksUpTo cts costs cts.length

/-- filter_unique: remove duplicate solutions with identical completion time
and cost. -/
def filter_unique (solutions : List Solution) : List Solution :=
  popDescending solutions
    (sortedDescDedup (uniqueMarks (solutions.map completionTime)
      (solutions.map (fun s => s.summary.cost))))

/-- Marking phase of uniqueness filtering written from the claim text: for
each i in order, among indices j greater than i not already marked, the first
j whose completion time and cost both exactly equal those of i is marked, and
the scan for that i then stops. -/
def uniqueMarksClaim (cts costs : List Int) : List Nat :=
  (List.range cts.length).foldl (fun marks i =>
    match (List.range' (i + 1) (cts.length - (i + 1))).find? (fun j =>
        decide (j ∉ marks) && decide (keyEq cts costs i j)) with
    | some j => marks ++ [j]
    | none => marks) []

/-- Uniqueness filtering written from the claim text: mark per the scan of
uniqueMarksClaim, then remove every marked member in descending index order. -/
def filterUniqueClaim (solutions : List Solution) : List Solution :=
  popDescending solutions
    (sortedDescDedup (uniqueMarksClaim (solutions.map completionTime)
      (solutions.map (fun s => s.summary.cost))))

/-- The vehicle shrink/discard pass of the dichotomy loop.  A present window
[tw0, tw1] is clamped to end at candidate, or the vehicle is dropped when
candidate < tw0.  An absent window reads as the default [0, latest] (only
index 0 is consulted), but the clamping assignment
vehicle["time_window"][1] = candidate then raises KeyError: none. -/
def clampDicho (candidate : Int) : List Vehicle → Option (List Vehicle)
  | [] => some []
  | v :: vs =>
    match v.time_window with
    | some tw =>
      if candidate < tw.1 then clampDicho candidate vs
      else (clampDicho candidate vs).map (fun r => ⟨some (tw.1, candidate)⟩ :: r)
    | none =>
      if candidate < 0 then clampDicho candidate vs else none

/-- The vehicle shrink/discard pass of backward_search.  It reads
vehicle["time_window"][0] unconditionally, so an absent window raises
KeyError immediately: none. -/
def clampBackward (latest : Int) : List Vehicle → Option (List Vehicle)
  | [] => some []
  | v :: vs =>
    match v.time_window with
    | some tw =>
      if latest < tw.1 then clampBackward latest vs
      else (clampBackward latest vs).map (fun r => ⟨some (tw.1, latest)⟩ :: r)
    | none => none

/-- Minimum declared window start over all vehicles,
min((v.get("time_window", [0, latest])[0] for v in vehicles), default=0):
window start defaulting to 0, and 0 when there are no vehicles. -/
def earliestTW (vehicles : List Vehicle) : Int :=
  match vehicles.map (fun v =>
      match v.time_window with
      | some tw => tw.1
      | none => 0) with
  | [] => 0
  | x :: xs => xs.foldl min x

/-- The while-True bisection loop of dichotomy.  candidate is the floor
midpoint; the loop stops when candidate hits either bound; a feasible probe
(unassigned = 0) is recorded with origin dichotomy and tightens latest; an
infeasible probe raises earliest.  Terminates because the integer width of
the bounds interval strictly shrinks. -/
def dichoLoop (oracle : VrpInstance → Solution) (inst : VrpInstance)
    (earliest latest : Int) (solutions : List Solution) :
    Option (List Solution) :=
  let candidate := (earliest + latest).fdiv 2
  if candidate = earliest ∨ candidate = latest then some solutions
  else
    match clampDicho candidate inst.vehicles with
    | none => none
    | some vs =>
      let sol := oracle ⟨vs⟩
      if sol.summary.unassigned = 0 then
        dichoLoop oracle inst earliest candidate
          (solutions ++ [{ sol with origin := some "dichotomy" }])
      else
        dichoLoop oracle inst candidate latest solutions
termination_by (latest - earliest).natAbs
decreasing_by
  all_goals {
    simp only [not_or] at *
    have hfe : (earliest + latest).fdiv 2 = (earliest + latest) / 2 :=
      Int.fdiv_eq_ediv _ (by norm_num)
    omega
  }

/-- dichotomy: record the initial solution with origin initial, derive the
search bounds from the per-route end dates (lowering earliest to the minimum
window start when the initial solution left vehicles idle), then bisect.
An empty routes list makes the Python min/max raise: none. -/
def dichotomy (oracle : VrpInstance → Solution) (data : VrpInstance)
    (first_solution : Solution) : Option (List Solution) :=
  let sol0 := { first_solution with origin := some "initial" }
  match first_solution.routes.map lastArrival with
  | [] => none
  | d :: ds =>
    let earliest0 := ds.foldl min d
    let latest := ds.foldl max d
    let earliest :=
      if first_solution.routes.length < data.vehicles.length then
        earliestTW data.vehicles
      else earliest0
    dichoLoop oracle data earliest latest [sol0]

/-- Failure modes of the modelled backward search: an uncaught Python
exception, or fuel exhaustion (a loop the source never exits). -/
inductive BwFail where
  | fuelOut : BwFail
  | pyErr : BwFail
deriving DecidableEq, Repr

/-- The while-loop of backward_search: while the last observed unassigned
count is zero, solve, append the result unconditionally (origin
backward_search), decrement latest, and shrink or drop each vehicle. -/
def backwardLoop (oracle : VrpInstance → Solution) :
    Nat → VrpInstance → Int → Int → List Solution →
    Except BwFail (List Solution)
  | 0, _, _, _, _ => .error .fuelOut
  | fuel + 1, current, latest, unassigned, solutions =>
    if unassigned = 0 then
      let sol := oracle current
      match sol.routes with
      | [] => .error .pyErr
      | _ :: _ =>
        let sol1 := { sol with origin := some "backward_search" }
        let latest1 := latest - 1
        match clampBackward latest1 current.vehicles with
        | none => .error .pyErr
        | some vs =>
          backwardLoop oracle fuel ⟨vs⟩ latest1 sol.summary.unassigned
            (solutions ++ [sol1])
    else .ok solutions

/-- backward_search: naive backward time-window reduction starting from the
completion time of the first solution (empty routes make Python max raise). -/
def backward_search (oracle : VrpInstance → Solution) (fuel : Nat)
    (data : VrpInstance) (first_solution : Solution) :
    Except BwFail (List Solution) :=
  match first_solution.routes.map lastArrival with
  | [] => .error .pyErr
  | d :: ds =>
    backwardLoop oracle fuel data (ds.foldl max d)
      first_solution.summary.unassigned []

/-- Failures surfaced by solve_asap: the OSError raised on a nonzero initial
status code, the OSError raised on an infeasible initial solution, or any
other uncaught Python exception. -/
inductive AsapError where
  | solverFailure : Int → String → AsapError
  | infeasibleInitial : AsapError
  | pyError : AsapError
deriving DecidableEq, Repr

/-- The value returned by solve_asap: the full Pareto front or the single
best solution. -/
inductive AsapOutput where
  | front : List Solution → AsapOutput
  | best : Solution → AsapOutput
deriving DecidableEq, Repr

/-- Drop the origin tag, sol.pop("origin", None). -/
def stripOrigin (s : Solution) : Solution := { s with origin := none }

/-- Strip of the single-best return, best.pop("origin", None) followed by
best["summary"].pop("computing_times", None). -/
def stripBest (s : Solution) : Solution :=
  { s with origin := none,
           summary := { s.summary with computing_times := none } }

/-- The sort key of solve_asap step 4: ascending completion time. -/
abbrev ctLE (a b : Solution) : Prop := completionTime a ≤ completionTime b

instance : DecidableRel ctLE := fun a b => Int.decLe _ _

instance : IsTotal Solution ctLE := ⟨fun a b => Int.le_total _ _⟩

instance : IsTrans Solution ctLE := ⟨fun _ _ _ hab hbc => le_trans hab hbc⟩

/-- Steps 2-6 of solve_asap, after the initial solve has been validated:
dichotomy, optional backward search, stable sort by completion time, the two
filters, optional plotting (a pure no-op here), and the front/best return. -/
def solveAsapRest (oracle : VrpInstance → Solution) (fuel : Nat)
    (pb : Problem) (init : Solution) : Option (Except AsapError AsapOutput) :=
  match dichotomy oracle pb.inst init with
  | none => some (.error .pyError)
  | some solutions =>
    match (if pb.pareto_front_more_solution then
        backward_search oracle fuel pb.inst init
      else .ok []) with
    | .error .fuelOut => none
    | .error .pyErr => some (.error .pyError)
    | .ok extra =>
      let pool := solutions ++ extra
      let sorted := List.insertionSort ctLE pool
      let afterDom := filter_dominated sorted
      let afterUniq := filter_unique afterDom
      if pb.return_pareto_front then
        some (.ok (.front (afterUniq.map stripOrigin)))
      else
        match afterUniq with
        | [] => some (.error .pyError)
        | best :: _ => some (.ok (.best (stripBest best)))

/-- solve_asap: run the initial unconstrained solve, raise on a nonzero
status code or a nonzero unassigned count, then run the search pipeline. -/
def solve_asap (oracle : VrpInstance → Solution) (fuel : Nat) (pb : Problem) :
    Option (Except AsapError AsapOutput) :=
  let init := oracle pb.inst
  if init.code ≠ 0 then some (.error (.solverFailure init.code init.error))
  else if init.summary.unassigned ≠ 0 then some (.error .infeasibleInitial)
  else solveAsapRest oracle fuel pb init

/-- Keep the elements of a list whose absolute position (starting at b) is
unmarked; proof-side normal form of popDescending. -/
def keepFrom (marked : Nat → Bool) : Nat → List α → List α
  | _, [] => []
  | b, x :: xs =>
    if marked b then keepFrom marked (b + 1) xs
    else x :: keepFrom marked (b + 1) xs

/-- p is the immediate earlier index with the same derived coordinates as j:
no index strictly between them shares the coordinates of j. -/
def ImmPred (cts costs : List Int) (p j : Nat) : Prop :=
  p < j ∧ j < cts.length ∧ keyEq cts costs p j ∧
    ∀ m, p < m → m < j → ¬ keyEq cts costs m j

/-- A fully assigned one-route solution with the given completion time and
cost, used as concrete input data. -/
def wSol (ct c : Int) : Solution :=
  ⟨0, "", [⟨[⟨ct⟩]⟩], ⟨c, 0, none⟩, none⟩

/-- A one-route solution with the given completion time, cost and unassigned
count, used as concrete input data. -/
def wSolU (ct c u : Int) : Solution :=
  ⟨0, "", [⟨[⟨ct⟩]⟩], ⟨c, u, none⟩, none⟩

/-- A concrete candidate pool whose two members do not dominate each other. -/
def c1pool : List Solution := [wSol 5 7, wSol 3 9]

/-- A vehicle with a declared time window. -/
def wVehicle : Vehicle := ⟨some (0, 100)⟩

/-- A vehicle with no declared time window. -/
def wNoWin : Vehicle := ⟨none⟩

/-- A constant oracle returning one feasible solution. -/
def wOracle2 : VrpInstance → Solution := fun _ => wSol 5 10

/-- A full-frontier request on a one-vehicle instance. -/
def wPb2 : Problem := ⟨⟨[wVehicle]⟩, true, false, false⟩

/-- A two-route first solution with end dates 0 and 10. -/
def wFirst4 : Solution :=
  ⟨0, "", [⟨[⟨(0 : Int)⟩]⟩, ⟨[⟨(10 : Int)⟩]⟩], ⟨50, 0, none⟩, none⟩

/-- An instance whose only vehicle declares no time window. -/
def wData4 : VrpInstance := ⟨[wNoWin]⟩

/-- A constant oracle; never consulted before the clamping step fails. -/
def wOracle4 : VrpInstance → Solution := fun _ => wSol 3 1

/-- A constant oracle whose initial solve fails with status code 1 while
also reporting five unassigned jobs. -/
def wOracle5 : VrpInstance → Solution :=
  fun _ => ⟨1, "boom", [⟨[⟨(5 : Int)⟩]⟩], ⟨0, 5, none⟩, none⟩

/-- A single-solution request on a one-vehicle instance. -/
def wPb5 : Problem := ⟨⟨[wVehicle]⟩, false, false, false⟩

/-- A constant oracle that always reports one unassigned job. -/
def wOracleInf : VrpInstance → Solution := fun _ => wSolU 3 4 1

/-- A one-vehicle instance with a declared window. -/
def wData7 : VrpInstance := ⟨[wVehicle]⟩

/-- A feasible first solution with completion time 5. -/
def wFirst7 : Solution := wSol 5 9

/-- A two-route feasible first solution with end dates 4 and 10. -/
def wFirst8 : Solution :=
  ⟨0, "", [⟨[⟨(4 : Int)⟩]⟩, ⟨[⟨(10 : Int)⟩]⟩], ⟨60, 0, none⟩, none⟩

theorem keepFrom_sublist (m : Nat → Bool) :
    ∀ (b : Nat) (l : List α), (keepFrom m b l).Sublist l := by
  intro b l
  induction l generalizing b with
  | nil => simp [keepFrom]
  | cons x xs ih =>
    simp only [keepFrom]
    split
    · exact (ih (b + 1)).cons x
    · exact (ih (b + 1)).cons₂ x

theorem keepFrom_congr {m1 m2 : Nat → Bool} :
    ∀ (b : Nat) (l : List α), (∀ i, b ≤ i → m1 i = m2 i) →
      keepFrom m1 b l = keepFrom m2 b l := by
  intro b l
  induction l generalizing b with
  | nil => intro _; rfl
  | cons x xs ih =>
    intro h
    simp only [keepFrom, h b (Nat.le_refl b)]
    rw [ih (b + 1) (fun i hi => h i (by omega))]

theorem keepFrom_allFalse {m : Nat → Bool} :
    ∀ (b : Nat) (l : List α), (∀ i, b ≤ i → m i = false) →
      keepFrom m b l = l := by
  intro b l
  induction l generalizing b with
  | nil => intro _; rfl
  | cons x xs ih =>
    intro h
    simp only [keepFrom, h b (Nat.le_refl b)]
    simp only [Bool.false_eq_true, if_false]
    rw [ih (b + 1) (fun i hi => h i (by omega))]

theorem keepFrom_eraseIdx {m : Nat → Bool} :
    ∀ (l : List α) (b i : Nat), (∀ j, b + i ≤ j → m j = false) →
      keepFrom m b (l.eraseIdx i) =
        keepFrom (fun j => if j = b + i then true else m j) b l := by
  intro l
  induction l with
  | nil => intro b i _; rfl
  | cons x xs ih =>
    intro b i h
    match i with
    | 0 =>
      simp only [List.eraseIdx_cons_zero]
      have h0 : ∀ j, b ≤ j → m j = false := by
        intro j hj; exact h j (by omega)
      rw [keepFrom_allFalse b xs h0]
      simp only [keepFrom, Nat.add_zero, if_pos rfl]
      rw [@keepFrom_congr _ (fun j => if j = b then true else m j) m (b + 1) xs
        (fun j hj => by
          have : j ≠ b := by omega
          simp [this])]
      exact (keepFrom_allFalse (b + 1) xs (fun j hj => h j (by omega))).symm
    | i + 1 =>
      simp only [List.eraseIdx_cons_succ]
      have hne : b ≠ b + (i + 1) := by omega
      simp only [keepFrom, if_neg hne]
      have harith : b + 1 + i = b + (i + 1) := by omega
      have hrec := ih (b + 1) i (by intro j hj; exact h j (by omega))
      simp only [harith] at hrec
      rw [hrec]

theorem popDescending_eq_keepFrom :
    ∀ {idxs : List Nat}, List.Pairwise (fun a b => b < a) idxs →
      ∀ (l : List α), popDescending l idxs =
        keepFrom (fun i => decide (i ∈ idxs)) 0 l := by
  intro idxs
  induction idxs with
  | nil =>
    intro _ l
    have : popDescending l [] = l := rfl
    rw [this]
    exact (keepFrom_allFalse 0 l (fun i _ => by simp)).symm
  | cons i rest ih =>
    intro hp l
    have hlt : ∀ j ∈ rest, j < i := (List.pairwise_cons.mp hp).1
    have hrest := (List.pairwise_cons.mp hp).2
    have hstep : popDescending l (i :: rest) = popDescending (l.eraseIdx i) rest := rfl
    rw [hstep, ih hrest]
    have herase := @keepFrom_eraseIdx _ (fun k => decide (k ∈ rest)) l 0 i
      (by
        intro j hj
        simp only [decide_eq_false_iff_not]
        intro hmem
        have := hlt j hmem
        omega)
    simp only [Nat.zero_add] at herase
    rw [herase]
    exact keepFrom_congr 0 l (fun k _ => by
      by_cases hk : k = i <;> simp [hk, List.mem_cons])

theorem mem_keepFrom {m : Nat → Bool} :
    ∀ (b : Nat) (l : List α) (a : α), a ∈ keepFrom m b l ↔
      ∃ i, ∃ h : i < l.length, l.get ⟨i, h⟩ = a ∧ m (b + i) = false := by
  intro b l
  induction l generalizing b with
  | nil => intro a; simp [keepFrom]
  | cons x xs ih =>
    intro a
    simp only [keepFrom]
    by_cases hb : m b
    · simp only [hb, if_true]
      rw [ih (b + 1) a]
      constructor
      · rintro ⟨i, h, hget, hm⟩
        refine ⟨i + 1, by simpa using Nat.succ_lt_succ h, ?_, ?_⟩
        · exact hget
        · have : b + (i + 1) = b + 1 + i := by omega
          rw [this]; exact hm
      · rintro ⟨i, h, hget, hm⟩
        match i with
        | 0 =>
          exfalso
          simp only [Nat.add_zero] at hm
          rw [hm] at hb
          exact absurd hb (by simp)
        | i + 1 =>
          refine ⟨i, by simpa using Nat.lt_of_succ_lt_succ h, hget, ?_⟩
          have : b + 1 + i = b + (i + 1) := by omega
          rw [this]; exact hm
    · simp only [hb]
      simp only [Bool.false_eq_true, if_false, List.mem_cons]
      rw [ih (b + 1) a]
      constructor
      · rintro (rfl | ⟨i, h, hget, hm⟩)
        · exact ⟨0, by simp, rfl, by simpa using hb⟩
        · refine ⟨i + 1, by simpa using Nat.succ_lt_succ h, hget, ?_⟩
          have : b + (i + 1) = b + 1 + i := by omega
          rw [this]; exact hm
      · rintro ⟨i, h, hget, hm⟩
        match i with
        | 0 => exact Or.inl hget.symm
        | i + 1 =>
          refine Or.inr ⟨i, by simpa using Nat.lt_of_succ_lt_succ h, hget, ?_⟩
          have : b + 1 + i = b + (i + 1) := by omega
          rw [this]; exact hm

theorem pairwise_keepFrom {m : Nat → Bool} {R : α → α → Prop} :
    ∀ (b : Nat) (l : List α),
      (∀ (i j : Nat) (hi : i < l.length) (hj : j < l.length), i < j →
        m (b + i) = false → m (b + j) = false →
        R (l.get ⟨i, hi⟩) (l.get ⟨j, hj⟩)) →
      List.Pairwise R (keepFrom m b l) := by
  intro b l
  induction l generalizing b with
  | nil => intro _; simp [keepFrom]
  | cons x xs ih =>
    intro h
    simp only [keepFrom]
    by_cases hb : m b
    · simp only [hb, if_true]
      apply ih (b + 1)
      intro i j hi hj hij hmi hmj
      have e1 : b + 1 + i = b + (i + 1) := by omega
      have e2 : b + 1 + j = b + (j + 1) := by omega
      rw [e1] at hmi; rw [e2] at hmj
      exact h (i + 1) (j + 1) (by simpa using Nat.succ_lt_succ hi)
        (by simpa using Nat.succ_lt_succ hj) (by omega) hmi hmj
    · simp only [hb]
      simp only [Bool.false_eq_true, if_false]
      constructor
      · intro y hy
        obtain ⟨i, hilen, hget, hm⟩ := (mem_keepFrom (b + 1) xs y).mp hy
        have e1 : b + 1 + i = b + (i + 1) := by omega
        rw [e1] at hm
        have := h 0 (i + 1) (by simp) (by simpa using Nat.succ_lt_succ hilen)
          (by omega) (by simpa using hb) hm
        rw [← hget]
        exact this
      · apply ih (b + 1)
        intro i j hi hj hij hmi hmj
        have e1 : b + 1 + i = b + (i + 1) := by omega
        have e2 : b + 1 + j = b + (j + 1) := by omega
        rw [e1] at hmi; rw [e2] at hmj
        exact h (i + 1) (j + 1) (by simpa using Nat.succ_lt_succ hi)
          (by simpa using Nat.succ_lt_succ hj) (by omega) hmi hmj

theorem sortedDescDedup_pairwise (xs : List Nat) :
    List.Pairwise (fun a b => b < a) (sortedDescDedup xs) := by
  have hs : List.Sorted descLe (List.insertionSort descLe xs.dedup) :=
    List.sorted_insertionSort descLe xs.dedup
  have hn : (List.insertionSort descLe xs.dedup).Nodup :=
    ((List.perm_insertionSort descLe xs.dedup).nodup_iff).mpr (List.nodup_dedup xs)
  have hand := List.Pairwise.and hs hn
  exact hand.imp (fun h => Nat.lt_of_le_of_ne h.1 (fun e => h.2 e.symm))

theorem mem_sortedDescDedup (xs : List Nat) (i : Nat) :
    i ∈ sortedDescDedup xs ↔ i ∈ xs :=
  ((List.perm_insertionSort descLe xs.dedup).mem_iff).trans List.mem_dedup

theorem popDescending_sortedDescDedup (l : List α) (marks : List Nat) :
    popDescending l (sortedDescDedup marks) =
      keepFrom (fun i => decide (i ∈ marks)) 0 l := by
  rw [popDescending_eq_keepFrom (sortedDescDedup_pairwise marks)]
  exact keepFrom_congr 0 l (fun i _ => by
    simp [mem_sortedDescDedup])

theorem popDescending_sublist : ∀ (idxs : List Nat) (l : List α),
    (popDescending l idxs).Sublist l := by
  intro idxs
  induction idxs with
  | nil => intro l; exact List.Sublist.refl l
  | cons i rest ih =>
    intro l
    have hstep : popDescending l (i :: rest) = popDescending (l.eraseIdx i) rest := rfl
    rw [hstep]
    exact (ih (l.eraseIdx i)).trans (List.eraseIdx_sublist l i)

theorem filter_dominated_sublist (sols : List Solution) :
    (filter_dominated sols).Sublist sols :=
  popDescending_sublist _ _

theorem filter_unique_sublist (sols : List Solution) :
    (filter_unique sols).Sublist sols :=
  popDescending_sublist _ _

theorem filter_dominated_eq_keepFrom (sols : List Solution) :
    filter_dominated sols =
      keepFrom (fun i => decide (i ∈ dominatedMarks (sols.map completionTime)
        (sols.map (fun s => s.summary.cost)))) 0 sols := by
  rw [filter_dominated, popDescending_sortedDescDedup]

theorem filter_unique_eq_keepFrom (sols : List Solution) :
    filter_unique sols =
      keepFrom (fun i => decide (i ∈ uniqueMarks (sols.map completionTime)
        (sols.map (fun s => s.summary.cost)))) 0 sols := by
  rw [filter_unique, popDescending_sortedDescDedup]

theorem mem_dominatedMarks {cts costs : List Int} {i : Nat} :
    i ∈ dominatedMarks cts costs ↔
      i < cts.length ∧ ∃ j, j < cts.length ∧ j ≠ i ∧
        cts.getD j 0 < cts.getD i 0 ∧ costs.getD j 0 < costs.getD i 0 := by
  simp only [dominatedMarks, List.mem_filter, List.mem_range, List.any_eq_true,
    Bool.and_eq_true, decide_eq_true_eq]
  constructor
  · rintro ⟨hi, j, hj, ⟨hne, hct⟩, hcost⟩
    exact ⟨hi, j, hj, hne, hct, hcost⟩
  · rintro ⟨hi, j, hj, hne, hct, hcost⟩
    exact ⟨hi, j, hj, ⟨hne, hct⟩, hcost⟩

theorem getD_map_completionTime (sols : List Solution) (j : Nat)
    (h : j < sols.length) :
    (sols.map completionTime).getD j 0 = completionTime (sols.get ⟨j, h⟩) := by
  rw [List.getD_eq_getElem _ _ (by simpa using h)]
  simp [List.getElem_map]

theorem getD_map_cost (sols : List Solution) (j : Nat) (h : j < sols.length) :
    (sols.map (fun s => s.summary.cost)).getD j 0 =
      (sols.get ⟨j, h⟩).summary.cost := by
  rw [List.getD_eq_getElem _ _ (by simpa using h)]
  simp [List.getElem_map]

/-- C1: after Frontier Reduction (dominance filtering then uniqueness
filtering) no surviving member is strictly dominated on both completion time
and cost by another surviving member; and a pool member that no member
strictly dominates on both axes survives dominance filtering (so a point
dominated on only one axis, or tied on either axis, survives). -/
theorem frontier_reduction_no_strict_domination :
    (∀ (pool : List Solution) (a b : Solution),
        a ∈ filter_unique (filter_dominated pool) →
        b ∈ filter_unique (filter_dominated pool) →
        ¬(completionTime b < completionTime a ∧
          b.summary.cost < a.summary.cost))
    ∧ (∀ (pool : List Solution) (i : Fin pool.length),
        (∀ j : Fin pool.length,
          ¬(completionTime (pool.get j) < completionTime (pool.get i) ∧
            (pool.get j).summary.cost < (pool.get i).summary.cost)) →
        pool.get i ∈ filter_dominated pool) := by
  constructor
  · intro pool a b ha hb hdom
    have hafd : a ∈ filter_dominated pool := (filter_unique_sublist _).subset ha
    have hbfd : b ∈ filter_dominated pool := (filter_unique_sublist _).subset hb
    have hbpool : b ∈ pool := (filter_dominated_sublist pool).subset hbfd
    rw [filter_dominated_eq_keepFrom] at hafd
    obtain ⟨i, hi, hgi, hmi⟩ := (mem_keepFrom 0 pool a).mp hafd
    simp only [Nat.zero_add, decide_eq_false_iff_not] at hmi
    obtain ⟨jf, hgj⟩ := List.mem_iff_get.mp hbpool
    apply hmi
    rw [mem_dominatedMarks]
    refine ⟨by simpa using hi, jf.val, by simpa using jf.isLt, ?_, ?_, ?_⟩
    · intro heq
      have hba : b = a := by
        rw [← hgj, ← hgi]
        congr 1
        exact Fin.ext heq
      rw [hba] at hdom
      exact lt_irrefl _ hdom.1
    · rw [getD_map_completionTime pool jf.val jf.isLt,
        getD_map_completionTime pool i hi]
      rw [show (⟨jf.val, jf.isLt⟩ : Fin pool.length) = jf from Fin.ext rfl]
      rw [hgj, hgi]
      exact hdom.1
    · rw [getD_map_cost pool jf.val jf.isLt, getD_map_cost pool i hi]
      rw [show (⟨jf.val, jf.isLt⟩ : Fin pool.length) = jf from Fin.ext rfl]
      rw [hgj, hgi]
      exact hdom.2
  · intro pool i hno
    rw [filter_dominated_eq_keepFrom]
    apply (mem_keepFrom 0 pool (pool.get i)).mpr
    refine ⟨i.val, i.isLt, ?_, ?_⟩
    · rw [show (⟨i.val, i.isLt⟩ : Fin pool.length) = i from Fin.ext rfl]
    · simp only [Nat.zero_add, decide_eq_false_iff_not]
      intro hmem
      rw [mem_dominatedMarks] at hmem
      obtain ⟨hilen, j, hj, _, hct, hcost⟩ := hmem
      have hjlen : j < pool.length := by simpa using hj
      apply hno ⟨j, hjlen⟩
      rw [getD_map_completionTime pool j hjlen,
        getD_map_completionTime pool i.val i.isLt,
        getD_map_cost pool j hjlen, getD_map_cost pool i.val i.isLt] at *
      rw [show (⟨i.val, i.isLt⟩ : Fin pool.length) = i from Fin.ext rfl] at hct hcost
      exact ⟨hct, hcost⟩

/-- Concrete instantiation of the dominance-filter survival property: the
first member of a pool with no strict domination survives. -/
theorem frontier_reduction_no_strict_domination_witness :
    c1pool.get ⟨0, by decide⟩ ∈ filter_dominated c1pool :=
  frontier_reduction_no_strict_domination.2 c1pool ⟨0, by decide⟩ (by decide)

/-- C9: stripping the origin tag is idempotent and leaves routes,
summary.cost and summary.unassigned unchanged, both for the full-frontier
strip (origin only) and for the single-best strip (origin plus the
computing_times diagnostic). -/
theorem strip_origin_round_trip :
    ∀ s : Solution,
      stripOrigin (stripOrigin s) = stripOrigin s ∧
      (stripOrigin s).routes = s.routes ∧
      (stripOrigin s).summary.cost = s.summary.cost ∧
      (stripOrigin s).summary.unassigned = s.summary.unassigned ∧
      stripBest (stripBest s) = stripBest s ∧
      (stripBest s).routes = s.routes ∧
      (stripBest s).summary.cost = s.summary.cost ∧
      (stripBest s).summary.unassigned = s.summary.unassigned :=
  fun _ => ⟨rfl, rfl, rfl, rfl, rfl, rfl, rfl, rfl⟩

theorem innerScan_eq_findFirst (cts costs : List Int) (i : Nat) (marks : List Nat) :
    ∀ (rem j0 : Nat),
      innerScan cts costs i marks j0 rem =
        (List.range' j0 rem).find? (fun j =>
          decide (j ∉ marks) && decide (keyEq cts costs i j)) := by
  intro rem
  induction rem with
  | zero => intro j0; rfl
  | succ rem ih =>
    intro j0
    rw [show List.range' j0 (rem + 1) = j0 :: List.range' (j0 + 1) rem from
      List.range'_succ j0 rem 1]
    rw [List.find?_cons]
    by_cases h1 : j0 ∈ marks
    · simp only [innerScan, if_pos h1]
      have hp : (decide (j0 ∉ marks) && decide (keyEq cts costs i j0)) = false := by
        rw [decide_eq_false (not_not_intro h1), Bool.false_and]
      rw [hp]
      exact ih (j0 + 1)
    · by_cases h2 : keyEq cts costs i j0
      · simp only [innerScan, if_neg h1, if_pos h2]
        have hp : (decide (j0 ∉ marks) && decide (keyEq cts costs i j0)) = true := by
          rw [decide_eq_true h1, decide_eq_true h2, Bool.and_true]
        rw [hp]
      · simp only [innerScan, if_neg h1, if_neg h2]
        have hp : (decide (j0 ∉ marks) && decide (keyEq cts costs i j0)) = false := by
          rw [decide_eq_false h2, Bool.and_false]
        rw [hp]
        exact ih (j0 + 1)

/-- C3: uniqueness filtering is exactly the described scan: for each i in
order, among indices j greater than i not already marked, the first j whose
completion time and cost both equal those of i is marked and the scan for
that i stops (at most one mark per i); afterwards every marked member is
removed in descending index order. -/
theorem filter_unique_eq_claim_description :
    ∀ sols : List Solution, filter_unique sols = filterUniqueClaim sols := by
  intro sols
  rw [filter_unique, filterUniqueClaim]
  have hmarks : ∀ (cts costs : List Int),
      uniqueMarks cts costs = uniqueMarksClaim cts costs := by
    intro cts costs
    rw [uniqueMarks, marksUpTo, uniqueMarksClaim]
    congr 1
    funext marks k
    rw [innerScan_eq_findFirst]
  rw [hmarks]

theorem innerScan_some_iff (cts costs : List Int) (i : Nat) (marks : List Nat) :
    ∀ (rem j0 j : Nat),
      innerScan cts costs i marks j0 rem = some j ↔
        (j0 ≤ j ∧ j < j0 + rem ∧ j ∉ marks ∧ keyEq cts costs i j ∧
          ∀ m, j0 ≤ m → m < j → (m ∈ marks ∨ ¬ keyEq cts costs i m)) := by
  intro rem
  induction rem with
  | zero =>
    intro j0 j
    constructor
    · intro h; exact absurd h (by simp [innerScan])
    · rintro ⟨h1, h2, _⟩; exact absurd h2 (by omega)
  | succ rem ih =>
    intro j0 j
    by_cases h1 : j0 ∈ marks
    · rw [show innerScan cts costs i marks j0 (rem + 1) =
          innerScan cts costs i marks (j0 + 1) rem from by
        simp only [innerScan]; rw [if_pos h1]]
      rw [ih (j0 + 1) j]
      constructor
      · rintro ⟨ha, hb, hc, hd, he⟩
        refine ⟨by omega, by omega, hc, hd, ?_⟩
        intro m hm1 hm2
        by_cases hm0 : m = j0
        · subst hm0; exact Or.inl h1
        · exact he m (by omega) hm2
      · rintro ⟨ha, hb, hc, hd, he⟩
        have hj0 : j ≠ j0 := fun e => hc (e ▸ h1)
        exact ⟨by omega, by omega, hc, hd, fun m hm1 hm2 => he m (by omega) hm2⟩
    · by_cases h2 : keyEq cts costs i j0
      · rw [show innerScan cts costs i marks j0 (rem + 1) = some j0 from by
          simp only [innerScan]; rw [if_neg h1, if_pos h2]]
        constructor
        · intro h
          have hj : j0 = j := Option.some.inj h
          subst hj
          exact ⟨Nat.le_refl _, by omega, h1, h2,
            fun m hm1 hm2 => absurd hm2 (by omega)⟩
        · rintro ⟨ha, hb, hc, hd, he⟩
          by_cases hne : j = j0
          · subst hne; rfl
          · rcases he j0 (Nat.le_refl _) (by omega) with hm | hk
            · exact absurd hm h1
            · exact absurd h2 hk
      · rw [show innerScan cts costs i marks j0 (rem + 1) =
            innerScan cts costs i marks (j0 + 1) rem from by
          simp only [innerScan]; rw [if_neg h1, if_neg h2]]
        rw [ih (j0 + 1) j]
        constructor
        · rintro ⟨ha, hb, hc, hd, he⟩
          refine ⟨by omega, by omega, hc, hd, ?_⟩
          intro m hm1 hm2
          by_cases hm0 : m = j0
          · subst hm0; exact Or.inr h2
          · exact he m (by omega) hm2
        · rintro ⟨ha, hb, hc, hd, he⟩
          have hj0 : j ≠ j0 := by rintro rfl; exact h2 hd
          exact ⟨by omega, by omega, hc, hd, fun m hm1 hm2 => he m (by omega) hm2⟩

theorem innerScan_none_iff (cts costs : List Int) (i : Nat) (marks : List Nat) :
    ∀ (rem j0 : Nat),
      innerScan cts costs i marks j0 rem = none ↔
        ∀ m, j0 ≤ m → m < j0 + rem → (m ∈ marks ∨ ¬ keyEq cts costs i m) := by
  intro rem
  induction rem with
  | zero =>
    intro j0
    constructor
    · intro _ m hm1 hm2; exact absurd hm2 (by omega)
    · intro _; rfl
  | succ rem ih =>
    intro j0
    by_cases h1 : j0 ∈ marks
    · rw [show innerScan cts costs i marks j0 (rem + 1) =
          innerScan cts costs i marks (j0 + 1) rem from by
        simp only [innerScan]; rw [if_pos h1]]
      rw [ih (j0 + 1)]
      constructor
      · intro h m hm1 hm2
        by_cases hm0 : m = j0
        · subst hm0; exact Or.inl h1
        · exact h m (by omega) (by omega)
      · intro h m hm1 hm2
        exact h m (by omega) (by omega)
    · by_cases h2 : keyEq cts costs i j0
      · rw [show innerScan cts costs i marks j0 (rem + 1) = some j0 from by
          simp only [innerScan]; rw [if_neg h1, if_pos h2]]
        constructor
        · intro h; exact absurd h (by simp)
        · intro h
          rcases h j0 (Nat.le_refl _) (by omega) with hm | hk
          · exact absurd hm h1
          · exact absurd h2 hk
      · rw [show innerScan cts costs i marks j0 (rem + 1) =
            innerScan cts costs i marks (j0 + 1) rem from by
          simp only [innerScan]; rw [if_neg h1, if_neg h2]]
        rw [ih (j0 + 1)]
        constructor
        · intro h m hm1 hm2
          by_cases hm0 : m = j0
          · subst hm0; exact Or.inr h2
          · exact h m (by omega) (by omega)
        · intro h m hm1 hm2
          exact h m (by omega) (by omega)

theorem marksUpTo_succ (cts costs : List Int) (i : Nat) :
    marksUpTo cts costs (i + 1) =
      (match innerScan cts costs i (marksUpTo cts costs i) (i + 1)
          (cts.length - (i + 1)) with
       | some j => marksUpTo cts costs i ++ [j]
       | none => marksUpTo cts costs i) := by
  simp only [marksUpTo]
  rw [List.range_succ, List.foldl_append]
  rfl

theorem immPred_unique {cts costs : List Int} {p q j : Nat} :
    ImmPred cts costs p j → ImmPred cts costs q j → p = q := by
  intro hp hq
  rcases Nat.lt_trichotomy p q with h | h | h
  · exact absurd hq.2.2.1 (hp.2.2.2 q h hq.1)
  · exact h
  · exact absurd hp.2.2.1 (hq.2.2.2 p h hp.1)

theorem exists_immPred_aux (cts costs : List Int) :
    ∀ (n i0 j : Nat), j - i0 ≤ n → i0 < j → j < cts.length →
      keyEq cts costs i0 j → ∃ p, ImmPred cts costs p j := by
  intro n
  induction n with
  | zero => intro i0 j h1 h2 _ _; exact absurd h2 (by omega)
  | succ n ih =>
    intro i0 j h1 h2 h3 h4
    by_cases hgap : ∀ m, i0 < m → m < j → ¬ keyEq cts costs m j
    · exact ⟨i0, h2, h3, h4, hgap⟩
    · push_neg at hgap
      obtain ⟨m, hm1, hm2, hm3⟩ := hgap
      exact ih m j (by omega) hm2 h3 hm3

theorem exists_immPred {cts costs : List Int} {i0 j : Nat} (h2 : i0 < j)
    (h3 : j < cts.length) (h4 : keyEq cts costs i0 j) :
    ∃ p, ImmPred cts costs p j :=
  exists_immPred_aux cts costs (j - i0) i0 j (Nat.le_refl _) h2 h3 h4

theorem marksUpTo_mem_iff (cts costs : List Int) :
    ∀ (i j : Nat), j ∈ marksUpTo cts costs i ↔
      ∃ p, ImmPred cts costs p j ∧ p < i := by
  intro i
  induction i with
  | zero =>
    intro j
    constructor
    · intro h; exact absurd h (by simp [marksUpTo])
    · rintro ⟨p, _, hp⟩; exact absurd hp (by omega)
  | succ i ih =>
    intro j
    rw [marksUpTo_succ]
    rcases hscan : innerScan cts costs i (marksUpTo cts costs i) (i + 1)
        (cts.length - (i + 1)) with _ | j'
    · rw [innerScan_none_iff] at hscan
      constructor
      · intro hj
        obtain ⟨p, hp, hpi⟩ := (ih j).mp hj
        exact ⟨p, hp, by omega⟩
      · rintro ⟨p, hp, hpi⟩
        rcases Nat.lt_or_ge p i with hlt | hge
        · exact (ih j).mpr ⟨p, hp, hlt⟩
        · have hpi' : p = i := by omega
          subst hpi'
          have hj1 : p + 1 ≤ j := hp.1
          have hj2 : j < cts.length := hp.2.1
          rcases hscan j (by omega) (by omega) with hm | hk
          · exact hm
          · exact absurd hp.2.2.1 hk
    · rw [innerScan_some_iff] at hscan
      obtain ⟨ha, hb, hc, hd, he⟩ := hscan
      have hj'n : j' < cts.length := by omega
      have himm : ImmPred cts costs i j' := by
        refine ⟨by omega, hj'n, hd, ?_⟩
        intro m hm1 hm2 hkm
        have hkim : keyEq cts costs i m :=
          ⟨hd.1.trans hkm.1.symm, hd.2.trans hkm.2.symm⟩
        rcases he m (by omega) hm2 with hmM | hnk
        · obtain ⟨q, hq, hqi⟩ := (ih m).mp hmM
          exact absurd hkim (hq.2.2.2 i hqi hm1)
        · exact hnk hkim
      simp only [List.mem_append, List.mem_singleton]
      constructor
      · rintro (hjM | rfl)
        · obtain ⟨p, hp, hpi⟩ := (ih j).mp hjM
          exact ⟨p, hp, by omega⟩
        · exact ⟨i, himm, by omega⟩
      · rintro ⟨p, hp, hpi⟩
        rcases Nat.lt_or_ge p i with hlt | hge
        · exact Or.inl ((ih j).mpr ⟨p, hp, hlt⟩)
        · have hpe : p = i := by omega
          subst hpe
          right
          by_contra hne
          have hjM : j ∉ marksUpTo cts costs p := by
            intro hmem
            obtain ⟨q, hq, hqi⟩ := (ih j).mp hmem
            have := immPred_unique hq hp
            omega
          rcases Nat.lt_trichotomy j j' with hlt' | heq | hgt
          · have hple : p + 1 ≤ j := hp.1
            rcases he j (by omega) hlt' with hm | hk
            · exact hjM hm
            · exact hk hp.2.2.1
          · exact hne heq
          · have hkj : keyEq cts costs j' j :=
              ⟨hd.1.symm.trans hp.2.2.1.1, hd.2.symm.trans hp.2.2.1.2⟩
            exact (hp.2.2.2 j' (by omega) hgt) hkj

theorem uniqueMarks_mem_iff {cts costs : List Int} {j : Nat} :
    j ∈ uniqueMarks cts costs ↔ ∃ p, ImmPred cts costs p j := by
  rw [uniqueMarks, marksUpTo_mem_iff]
  constructor
  · rintro ⟨p, hp, _⟩; exact ⟨p, hp⟩
  · rintro ⟨p, hp⟩
    refine ⟨p, hp, ?_⟩
    have h1 := hp.1
    have h2 := hp.2.1
    omega

/-- C10: one call to filter_unique fully deduplicates the pool, even when
three or more members share identical completion time and cost: no two
distinct survivors have both coordinates equal, because every marked
duplicate still acts as an outer index and marks the next unmarked duplicate
of its run. -/
theorem filter_unique_single_pass_dedup :
    ∀ pool : List Solution,
      List.Pairwise (fun a b =>
        ¬(completionTime a = completionTime b ∧
          a.summary.cost = b.summary.cost)) (filter_unique pool) := by
  intro pool
  rw [filter_unique_eq_keepFrom]
  apply pairwise_keepFrom
  intro i j hi hj hij hmi hmj
  simp only [Nat.zero_add, decide_eq_false_iff_not] at hmi hmj
  rintro ⟨hct, hcost⟩
  apply hmj
  apply uniqueMarks_mem_iff.mpr
  refine exists_immPred hij ?_ ?_
  · simpa using hj
  · constructor
    · rw [getD_map_completionTime pool i hi, getD_map_completionTime pool j hj]
      exact hct
    · rw [getD_map_cost pool i hi, getD_map_cost pool j hj]
      exact hcost

theorem dichoLoop_unfold (oracle : VrpInstance → Solution) (inst : VrpInstance)
    (earliest latest : Int) (solutions : List Solution) :
    dichoLoop oracle inst earliest latest solutions =
      (let candidate := (earliest + latest).fdiv 2
       if candidate = earliest ∨ candidate = latest then some solutions
       else
         match clampDicho candidate inst.vehicles with
         | none => none
         | some vs =>
           let sol := oracle ⟨vs⟩
           if sol.summary.unassigned = 0 then
             dichoLoop oracle inst earliest candidate
               (solutions ++ [{ sol with origin := some "dichotomy" }])
           else
             dichoLoop oracle inst candidate latest solutions) := by
  rw [dichoLoop]

/-- C6: each bisection iteration probes candidate = floor((earliest+latest)/2);
the loop stops exactly when the candidate equals a bound, a feasible probe
(zero unassigned) is recorded with origin dichotomy and replaces latest, an
infeasible probe records nothing and replaces earliest; and at every
continuing iteration the integer interval width strictly shrinks on both
possible successor intervals, so termination is always reached. -/
theorem dichotomy_iteration_behavior :
    (∀ (oracle : VrpInstance → Solution) (inst : VrpInstance)
        (earliest latest : Int) (solutions : List Solution),
      dichoLoop oracle inst earliest latest solutions =
        (let candidate := (earliest + latest).fdiv 2
         if candidate = earliest ∨ candidate = latest then some solutions
         else
           match clampDicho candidate inst.vehicles with
           | none => none
           | some vs =>
             let sol := oracle ⟨vs⟩
             if sol.summary.unassigned = 0 then
               dichoLoop oracle inst earliest candidate
                 (solutions ++ [{ sol with origin := some "dichotomy" }])
             else
               dichoLoop oracle inst candidate latest solutions))
    ∧ (∀ earliest latest : Int,
        ¬((earliest + latest).fdiv 2 = earliest ∨
          (earliest + latest).fdiv 2 = latest) →
        (((earliest + latest).fdiv 2 - earliest).natAbs <
            (latest - earliest).natAbs ∧
         (latest - (earliest + latest).fdiv 2).natAbs <
            (latest - earliest).natAbs)) := by
  constructor
  · exact dichoLoop_unfold
  · intro earliest latest h
    have hfe : (earliest + latest).fdiv 2 = (earliest + latest) / 2 :=
      Int.fdiv_eq_ediv _ (by norm_num)
    rw [hfe] at h ⊢
    omega

/-- Concrete instantiation of the interval-shrink part of the bisection step:
from bounds 0 and 10 the candidate 5 strictly shrinks both successor
intervals. -/
theorem dichotomy_iteration_behavior_witness :
    (((0 : Int) + 10).fdiv 2 - 0).natAbs < ((10 : Int) - 0).natAbs ∧
    ((10 : Int) - ((0 : Int) + 10).fdiv 2).natAbs < ((10 : Int) - 0).natAbs :=
  dichotomy_iteration_behavior.2 0 10 (by decide)

theorem clampDicho_total (c : Int) :
    ∀ (vs : List Vehicle), (∀ v ∈ vs, v.time_window ≠ none) →
      ∃ r, clampDicho c vs = some r := by
  intro vs
  induction vs with
  | nil => intro _; exact ⟨[], rfl⟩
  | cons v rest ih =>
    intro h
    obtain ⟨r, hr⟩ := ih (fun w hw => h w (List.mem_cons_of_mem v hw))
    rcases htw : v.time_window with _ | tw
    · exact absurd htw (h v (List.mem_cons_self v rest))
    · simp only [clampDicho, htw]
      by_cases hc : c < tw.1
      · rw [if_pos hc]; exact ⟨r, hr⟩
      · rw [if_neg hc, hr]; exact ⟨_, rfl⟩

theorem foldl_min_le_init : ∀ (ds : List Int) (d : Int), ds.foldl min d ≤ d := by
  intro ds
  induction ds with
  | nil => intro d; exact le_refl d
  | cons x xs ih => intro d; exact le_trans (ih (min d x)) (min_le_left d x)

theorem init_le_foldl_max : ∀ (ds : List Int) (d : Int), d ≤ ds.foldl max d := by
  intro ds
  induction ds with
  | nil => intro d; exact le_refl d
  | cons x xs ih => intro d; exact le_trans (le_max_left d x) (ih (max d x))

theorem dichoLoop_all_infeasible (oracle : VrpInstance → Solution)
    (inst : VrpInstance) (l0 : Int)
    (hwin : ∀ v ∈ inst.vehicles, v.time_window ≠ none)
    (hinf : ∀ (c : Int) (vs : List Vehicle), clampDicho c inst.vehicles = some vs →
      c < l0 → (oracle ⟨vs⟩).summary.unassigned ≠ 0) :
    ∀ (n : Nat) (e : Int) (acc : List Solution), (l0 - e).natAbs ≤ n → e ≤ l0 →
      dichoLoop oracle inst e l0 acc = some acc := by
  intro n
  induction n with
  | zero =>
    intro e acc hn he
    have he0 : e = l0 := by omega
    subst he0
    rw [dichoLoop_unfold]
    have hc : (e + e).fdiv 2 = e := by
      rw [Int.fdiv_eq_ediv _ (by norm_num)]
      omega
    simp [hc]
  | succ n ih =>
    intro e acc hn he
    rw [dichoLoop_unfold]
    by_cases hstop : (e + l0).fdiv 2 = e ∨ (e + l0).fdiv 2 = l0
    · simp only [if_pos hstop]
    · simp only [if_neg hstop]
      have hfe : (e + l0).fdiv 2 = (e + l0) / 2 :=
        Int.fdiv_eq_ediv _ (by norm_num)
      rw [not_or] at hstop
      have hb1 : e < (e + l0).fdiv 2 := by
        rcases hstop with ⟨h1, _⟩
        rw [hfe] at h1 ⊢
        omega
      have hb2 : (e + l0).fdiv 2 < l0 := by
        rcases hstop with ⟨_, h2⟩
        rw [hfe] at h2 ⊢
        omega
      obtain ⟨vs, hcl⟩ := clampDicho_total ((e + l0).fdiv 2) inst.vehicles hwin
      rw [hcl]
      have hne := hinf ((e + l0).fdiv 2) vs hcl hb2
      simp only [if_neg hne]
      exact ih ((e + l0).fdiv 2) acc (by omega) (by omega)

/-- C8: when the oracle reports a nonzero unassigned count at every probed
horizon strictly below the unconstrained completion time, the dichotomic
search returns exactly the initial solution, tagged origin initial (stated
for well-formed inputs: nonempty routes, declared vehicle windows, and a
minimum window start not exceeding the unconstrained completion time). -/
theorem dichotomy_single_when_all_infeasible :
    ∀ (oracle : VrpInstance → Solution) (data : VrpInstance)
      (first_solution : Solution),
      first_solution.routes ≠ [] →
      (∀ v ∈ data.vehicles, v.time_window ≠ none) →
      earliestTW data.vehicles ≤ completionTime first_solution →
      (∀ (c : Int) (vs : List Vehicle), clampDicho c data.vehicles = some vs →
        c < completionTime first_solution →
        (oracle ⟨vs⟩).summary.unassigned ≠ 0) →
      dichotomy oracle data first_solution =
        some [{ first_solution with origin := some "initial" }] := by
  intro oracle data first hne hwin hTW hinf
  rcases hroutes : first.routes.map lastArrival with _ | ⟨d, ds⟩
  · exact absurd (List.map_eq_nil.mp hroutes) hne
  · have hct : completionTime first = ds.foldl max d := by
      rw [completionTime, hroutes]
    simp only [dichotomy]
    rw [hroutes]
    have hinf' : ∀ (c : Int) (vs : List Vehicle),
        clampDicho c data.vehicles = some vs → c < ds.foldl max d →
        (oracle ⟨vs⟩).summary.unassigned ≠ 0 := by
      intro c vs hc hlt
      exact hinf c vs hc (by rwa [hct])
    by_cases hidle : first.routes.length < data.vehicles.length
    · simp only [if_pos hidle]
      exact dichoLoop_all_infeasible oracle data (ds.foldl max d) hwin hinf' _
        (earliestTW data.vehicles) _ (Nat.le_refl _) (by rwa [hct] at hTW)
    · simp only [if_neg hidle]
      have hle : ds.foldl min d ≤ ds.foldl max d :=
        le_trans (foldl_min_le_init ds d) (init_le_foldl_max ds d)
      exact dichoLoop_all_infeasible oracle data (ds.foldl max d) hwin hinf' _
        (ds.foldl min d) _ (Nat.le_refl _) hle

/-- Concrete instantiation: an always-infeasible oracle makes the dichotomic
search return only the tagged initial solution. -/
theorem dichotomy_single_when_all_infeasible_witness :
    dichotomy wOracleInf ⟨[wVehicle]⟩ wFirst8 =
      some [{ wFirst8 with origin := some "initial" }] :=
  dichotomy_single_when_all_infeasible wOracleInf ⟨[wVehicle]⟩ wFirst8
    (by decide) (by decide) (by decide) (fun _ _ _ _ => one_ne_zero)

/-- C4: the horizon-clamping steps raise KeyError on a vehicle with no
declared time window instead of treating it as unbounded: the dichotomy run
aborts with an exception at its first probe, and so does the backward sweep
at its first window shrink. -/
theorem windowless_vehicle_clamp_keyerror :
    dichotomy wOracle4 wData4 wFirst4 = none ∧
    backward_search wOracle4 1 wData4 wFirst4 = Except.error BwFail.pyErr := by
  constructor
  · have h1 : dichotomy wOracle4 wData4 wFirst4 =
        dichoLoop wOracle4 wData4 0 10
          [{ wFirst4 with origin := some "initial" }] := rfl
    rw [h1, dichoLoop_unfold]
    rfl
  · rfl

theorem backwardLoop_invariant (oracle : VrpInstance → Solution) :
    ∀ (fuel : Nat) (current : VrpInstance) (latest u : Int)
      (acc out : List Solution),
      (∀ (i : Nat) (h : i + 1 < acc.length),
        (acc.get ⟨i, by omega⟩).summary.unassigned = 0) →
      (∀ h : acc ≠ [], (acc.getLast h).summary.unassigned = u) →
      backwardLoop oracle fuel current latest u acc = Except.ok out →
      ((∀ (i : Nat) (h : i + 1 < out.length),
          (out.get ⟨i, by omega⟩).summary.unassigned = 0) ∧
       (∀ h : out ≠ [], (out.getLast h).summary.unassigned ≠ 0)) := by
  intro fuel
  induction fuel with
  | zero =>
    intro current latest u acc out _ _ hloop
    exact absurd hloop (by simp [backwardLoop])
  | succ fuel ih =>
    intro current latest u acc out hinv1 hinv2 hloop
    by_cases hu : u = 0
    · simp only [backwardLoop, if_pos hu] at hloop
      rcases hR : (oracle current).routes with _ | ⟨r, rs⟩
      · nth_rewrite 1 [hR] at hloop
        exact absurd hloop (by simp)
      · nth_rewrite 1 [hR] at hloop
        rcases hC : clampBackward (latest - 1) current.vehicles with _ | vs
        · rw [hC] at hloop
          exact absurd hloop (by simp)
        · rw [hC] at hloop
          refine ih ⟨vs⟩ (latest - 1) (oracle current).summary.unassigned
            (acc ++ [{ oracle current with origin := some "backward_search" }])
            out ?_ ?_ hloop
          · intro i h
            rw [List.length_append, List.length_singleton] at h
            have hia : i < acc.length := by omega
            have hget := @List.get_append _ acc
              [{ oracle current with origin := some "backward_search" }] i hia
            rw [hget]
            by_cases hii : i + 1 < acc.length
            · exact hinv1 i hii
            · have hne : acc ≠ [] := by
                intro he
                rw [he] at hia
                exact absurd hia (by simp)
              have hlast : acc.get ⟨i, hia⟩ = acc.getLast hne := by
                rw [List.getLast_eq_get]
                have : i = acc.length - 1 := by omega
                subst this
                rfl
              rw [hlast, hinv2 hne, hu]
          · intro hne2
            have hl : (acc ++
                [{ oracle current with origin := some "backward_search" }]).getLast hne2 =
                { oracle current with origin := some "backward_search" } := by
              simp
            rw [hl]
    · simp only [backwardLoop, if_neg hu] at hloop
      have hacc : acc = out := Except.ok.inj hloop
      subst hacc
      exact ⟨hinv1, fun hne => by rw [hinv2 hne]; exact hu⟩

/-- C7: the backward sweep appends every oracle result before re-checking the
loop condition, so when it returns normally every appended solution except
the last has zero unassigned jobs, and the last appended solution (the one
that ended the loop) has a nonzero unassigned count. -/
theorem backward_search_appends_even_last_infeasible :
    ∀ (oracle : VrpInstance → Solution) (fuel : Nat) (data : VrpInstance)
      (first_solution : Solution) (out : List Solution),
      backward_search oracle fuel data first_solution = Except.ok out →
      ((∀ (i : Nat) (h : i + 1 < out.length),
          (out.get ⟨i, by omega⟩).summary.unassigned = 0) ∧
       (∀ h : out ≠ [], (out.getLast h).summary.unassigned ≠ 0)) := by
  intro oracle fuel data first out h
  rcases hroutes : first.routes.map lastArrival with _ | ⟨d, ds⟩
  · simp only [backward_search] at h
    rw [hroutes] at h
    exact absurd h (by simp)
  · simp only [backward_search] at h
    rw [hroutes] at h
    exact backwardLoop_invariant oracle fuel data (ds.foldl max d)
      first.summary.unassigned [] out
      (fun i hi => absurd hi (by simp)) (fun hne => absurd rfl hne) h

/-- Concrete instantiation: a sweep whose first probe is infeasible still
appends that probe, and it is the last element with nonzero unassigned. -/
theorem backward_search_appends_even_last_infeasible_witness :
    ([{ wSolU 3 4 1 with origin := some "backward_search" }].getLast
        (by simp)).summary.unassigned ≠ 0 :=
  (backward_search_appends_even_last_infeasible wOracleInf 2 wData7 wFirst7
    [{ wSolU 3 4 1 with origin := some "backward_search" }] rfl).2 (by simp)

theorem solveAsapRest_shape (oracle : VrpInstance → Solution) (fuel : Nat)
    (pb : Problem) (init : Solution) :
    solveAsapRest oracle fuel pb init = none ∨
    solveAsapRest oracle fuel pb init = some (Except.error AsapError.pyError) ∨
    ∃ out, solveAsapRest oracle fuel pb init = some (Except.ok out) := by
  simp only [solveAsapRest]
  rcases hd : dichotomy oracle pb.inst init with _ | sols
  · exact Or.inr (Or.inl rfl)
  · rcases hb : (if pb.pareto_front_more_solution then
        backward_search oracle fuel pb.inst init
      else Except.ok []) with fail | extra
    · cases fail
      · exact Or.inl rfl
      · exact Or.inr (Or.inl rfl)
    · by_cases hrf : pb.return_pareto_front
      · simp only [if_pos hrf]
        exact Or.inr (Or.inr ⟨_, rfl⟩)
      · simp only [if_neg hrf]
        rcases hL : filter_unique (filter_dominated
            (List.insertionSort ctLE (sols ++ extra))) with _ | ⟨b, rest⟩
        · exact Or.inr (Or.inl rfl)
        · exact Or.inr (Or.inr ⟨_, rfl⟩)

theorem solveAsapRest_no_initial_error (oracle : VrpInstance → Solution)
    (fuel : Nat) (pb : Problem) (init : Solution) :
    (∀ c m, solveAsapRest oracle fuel pb init ≠
      some (Except.error (AsapError.solverFailure c m))) ∧
    solveAsapRest oracle fuel pb init ≠
      some (Except.error AsapError.infeasibleInitial) := by
  rcases solveAsapRest_shape oracle fuel pb init with h | h | ⟨out, h⟩ <;>
    exact ⟨fun c m => by rw [h]; simp, by rw [h]; simp⟩

/-- C5 counterexample: an oracle whose initial solve has status code 1 and
five unassigned jobs raises the solver-failure error, not the
infeasible-initial error, so raising the infeasible-initial error is not
equivalent to a nonzero initial unassigned count. -/
theorem solve_asap_infeasible_error_mismatch :
    ¬((solve_asap wOracle5 0 wPb5 = some (Except.error AsapError.infeasibleInitial))
      ↔ (wOracle5 wPb5.inst).summary.unassigned ≠ 0) := by
  intro hiff
  have h5 : (wOracle5 wPb5.inst).summary.unassigned ≠ 0 := by decide
  have h2 := hiff.mpr h5
  have h3 : solve_asap wOracle5 0 wPb5 =
      some (Except.error (AsapError.solverFailure 1 "boom")) := rfl
  rw [h3] at h2
  simp at h2

/-- C5 amended: solve_asap raises the solver-failure error exactly when the
initial status code is nonzero, raises the infeasible-initial error exactly
when the status code is zero and the initial unassigned count is nonzero,
and raises neither for any mid-search probe outcome. -/
theorem solve_asap_raises_iff_initial :
    ∀ (oracle : VrpInstance → Solution) (fuel : Nat) (pb : Problem),
      ((∃ c m, solve_asap oracle fuel pb =
          some (Except.error (AsapError.solverFailure c m))) ↔
        (oracle pb.inst).code ≠ 0)
      ∧ ((solve_asap oracle fuel pb =
          some (Except.error AsapError.infeasibleInitial)) ↔
        ((oracle pb.inst).code = 0 ∧
          (oracle pb.inst).summary.unassigned ≠ 0)) := by
  intro oracle fuel pb
  have hrest := solveAsapRest_no_initial_error oracle fuel pb (oracle pb.inst)
  by_cases hcode : (oracle pb.inst).code = 0
  · by_cases hun : (oracle pb.inst).summary.unassigned = 0
    · have hs : solve_asap oracle fuel pb =
          solveAsapRest oracle fuel pb (oracle pb.inst) := by
        simp only [solve_asap]
        rw [if_neg (not_not_intro hcode), if_neg (not_not_intro hun)]
      constructor
      · constructor
        · rintro ⟨c, m, hcm⟩
          rw [hs] at hcm
          exact absurd hcm (hrest.1 c m)
        · intro hc
          exact absurd hcode hc
      · constructor
        · intro hinf
          rw [hs] at hinf
          exact absurd hinf hrest.2
        · rintro ⟨_, hu⟩
          exact absurd hun hu
    · have hs : solve_asap oracle fuel pb =
          some (Except.error AsapError.infeasibleInitial) := by
        simp only [solve_asap]
        rw [if_neg (not_not_intro hcode), if_pos hun]
      constructor
      · constructor
        · rintro ⟨c, m, hcm⟩
          rw [hs] at hcm
          exact absurd hcm (by simp)
        · intro hc
          exact absurd hcode hc
      · constructor
        · intro _
          exact ⟨hcode, hun⟩
        · intro _
          exact hs
  · have hs : solve_asap oracle fuel pb =
        some (Except.error (AsapError.solverFailure (oracle pb.inst).code
          (oracle pb.inst).error)) := by
      simp only [solve_asap]
      rw [if_pos hcode]
    constructor
    · constructor
      · intro _
        exact hcode
      · intro _
        exact ⟨_, _, hs⟩
    · constructor
      · intro hinf
        rw [hs] at hinf
        exact absurd hinf (by simp)
      · rintro ⟨h0, _⟩
        exact absurd h0 hcode

/-- Concrete instantiation: a nonzero initial status code yields exactly the
solver-failure error. -/
theorem solve_asap_raises_iff_initial_witness :
    ∃ c m, solve_asap wOracle5 0 wPb5 =
      some (Except.error (AsapError.solverFailure c m)) :=
  (solve_asap_raises_iff_initial wOracle5 0 wPb5).1.mpr (by decide)

theorem completionTime_stripOrigin (s : Solution) :
    completionTime (stripOrigin s) = completionTime s := rfl

/-- C2: whenever solve_asap returns the full frontier, the returned list is
sorted ascending by completion time: the pool is sorted before filtering,
both filters only remove members (preserving relative order of survivors),
and stripping origin tags leaves completion times unchanged. -/
theorem solve_asap_front_sorted :
    ∀ (oracle : VrpInstance → Solution) (fuel : Nat) (pb : Problem)
      (sols : List Solution),
      solve_asap oracle fuel pb = some (Except.ok (AsapOutput.front sols)) →
      List.Pairwise (fun a b => completionTime a ≤ completionTime b) sols := by
  intro oracle fuel pb sols h
  by_cases hcode : (oracle pb.inst).code = 0
  · by_cases hun : (oracle pb.inst).summary.unassigned = 0
    · have hs : solve_asap oracle fuel pb =
          solveAsapRest oracle fuel pb (oracle pb.inst) := by
        simp only [solve_asap]
        rw [if_neg (not_not_intro hcode), if_neg (not_not_intro hun)]
      rw [hs] at h
      simp only [solveAsapRest] at h
      rcases hd : dichotomy oracle pb.inst (oracle pb.inst) with _ | sols0
      · rw [hd] at h
        exact absurd h (by simp)
      · rw [hd] at h
        rcases hb : (if pb.pareto_front_more_solution then
            backward_search oracle fuel pb.inst (oracle pb.inst)
          else Except.ok []) with fail | extra
        · rw [hb] at h
          cases fail
          · exact absurd h (by simp)
          · exact absurd h (by simp)
        · rw [hb] at h
          by_cases hrf : pb.return_pareto_front
          · simp only [if_pos hrf] at h
            simp only [Option.some.injEq, Except.ok.injEq,
              AsapOutput.front.injEq] at h
            subst h
            rw [List.pairwise_map]
            have hsorted : List.Pairwise ctLE
                (List.insertionSort ctLE (sols0 ++ extra)) :=
              List.sorted_insertionSort ctLE (sols0 ++ extra)
            have h1 : List.Pairwise ctLE (filter_dominated
                (List.insertionSort ctLE (sols0 ++ extra))) :=
              List.Pairwise.sublist (filter_dominated_sublist _) hsorted
            have h2 : List.Pairwise ctLE (filter_unique (filter_dominated
                (List.insertionSort ctLE (sols0 ++ extra)))) :=
              List.Pairwise.sublist (filter_unique_sublist _) h1
            simp only [completionTime_stripOrigin]
            exact h2
          · simp only [if_neg hrf] at h
            rcases hL : filter_unique (filter_dominated
                (List.insertionSort ctLE (sols0 ++ extra))) with _ | ⟨b, rest⟩
            · rw [hL] at h
              exact absurd h (by simp)
            · rw [hL] at h
              exact absurd h (by simp)
    · have hs : solve_asap oracle fuel pb =
          some (Except.error AsapError.infeasibleInitial) := by
        simp only [solve_asap]
        rw [if_neg (not_not_intro hcode), if_pos hun]
      rw [hs] at h
      exact absurd h (by simp)
  · have hs : solve_asap oracle fuel pb =
        some (Except.error (AsapError.solverFailure (oracle pb.inst).code
          (oracle pb.inst).error)) := by
      simp only [solve_asap]
      rw [if_pos hcode]
    rw [hs] at h
    exact absurd h (by simp)

theorem wRun2 : solve_asap wOracle2 0 wPb2 =
    some (Except.ok (AsapOutput.front [wSol 5 10])) := by
  have hd : dichotomy wOracle2 wPb2.inst (wSol 5 10) =
      some [{ wSol 5 10 with origin := some "initial" }] := by
    have h1 : dichotomy wOracle2 wPb2.inst (wSol 5 10) =
        dichoLoop wOracle2 wPb2.inst 5 5
          [{ wSol 5 10 with origin := some "initial" }] := rfl
    rw [h1, dichoLoop_unfold]
    rfl
  have hs : solve_asap wOracle2 0 wPb2 =
      solveAsapRest wOracle2 0 wPb2 (wSol 5 10) := rfl
  rw [hs]
  simp only [solveAsapRest]
  rw [hd]
  rfl

/-- Concrete instantiation: a full-frontier run returns a list sorted
ascending by completion time. -/
theorem solve_asap_front_sorted_witness :
    List.Pairwise (fun a b => completionTime a ≤ completionTime b)
      [wSol 5 10] :=
  solve_asap_front_sorted wOracle2 0 wPb2 [wSol 5 10] wRun2

end Asap
